import Mathlib

/-!
Verification of the typist-art matching engine (typistapp-rs).

This file gives a shallow embedding of the core data model and operations of
the repository — fingerprint elements (`src/element.rs`), the Pearson
correlation metric (`src/correlation.rs`, duplicated as `Model::correlation`
in `src/model.rs`), and the two-stage per-tile search plus collection
normalization of `Model` (`src/model.rs`) — and proves or refutes the
specified properties about them.

Modelling conventions:
- `f64` values are embedded as `ℚ` wherever the code only adds, subtracts,
  multiplies, divides and compares them; the one genuine square root
  (`correlation`'s denominator) is taken in `ℝ` via `Real.sqrt`.
- Rust's `&mut self` method `Element::normalized` returning `Result<()>` is
  embedded as a pure function returning the updated element together with an
  `Except` outcome; an early-return `Err` leaves the element untouched,
  exactly as the Rust early return does.
- The `unwrap()` panics inside `Model::run`'s normalization loop are
  modelled as the whole pass returning the underlying error.
- Rust's `slice::binary_search_by` is embedded as the classic
  half-interval loop, fuelled by the slice length (the fuel is an upper
  bound on the iteration count, so it is never exhausted).
-/

set_option maxHeartbeats 1000000

namespace TypistApp

/-- Constant `F64_ALMOST_ZERO = 1e-12` from `src/lib.rs`. -/
def F64_ALMOST_ZERO : ℚ := 1 / 10 ^ 12

/-- Constant `NUM_OF_CANDIDATES = 16` from `src/lib.rs`. -/
def NUM_OF_CANDIDATES : Nat := 16

/-- Constant `IMAGE_FONT_SIZE = 18` from `src/lib.rs`. -/
def IMAGE_FONT_SIZE : Nat := 18

/-- Constant `IMAGE_MARGIN = 1` from `src/lib.rs`. -/
def IMAGE_MARGIN : Nat := 1

/-- Constant `IMAGE_SIZE = IMAGE_FONT_SIZE + IMAGE_MARGIN * 2` from `src/lib.rs`. -/
def IMAGE_SIZE : Nat := IMAGE_FONT_SIZE + IMAGE_MARGIN * 2

/-- Constant `FULL_WIDTH_SPACE = '　'` (U+3000) from `src/lib.rs`. -/
def FULL_WIDTH_SPACE : Char := '　'

/-- Error classes produced by the engine (the Rust code uses `anyhow!`
message strings; we classify them as the spec does, keeping the data the
message names). -/
inductive TError where
  | glyphNotFound (character : Char)
  | emptyTile
  | invalidRange (mn mx : ℚ)
deriving DecidableEq

/-- Pixel payload of a `DynamicImage`; retained only informationally
(`src/element.rs` never reads it back after construction). -/
structure ImageData where
  pixels : List (ℚ × ℚ × ℚ × ℚ)
deriving DecidableEq

/-- Outline data an `ab_glyph` font reports for a glyph: its pixel bounds
and the anti-aliased coverage callback stream `(x, y, c)` replayed by
`OutlinedGlyph::draw`. -/
structure Outline where
  boundsMinX : ℚ
  boundsMinY : ℚ
  boundsWidth : ℚ
  boundsHeight : ℚ
  coverage : List (Nat × Nat × ℚ)

/-- The font provider collaborator: `font.outline_glyph(font.glyph_id(c).with_scale(s))`. -/
structure Font where
  outlineGlyph : Char → ℚ → Option Outline

/-- `Element` from `src/element.rs`: a fingerprint of either a rendered
glyph or an image tile. -/
structure Element where
  characteristics : List ℚ
  luminance : ℚ
  character : Option Char
  image : Option ImageData
deriving DecidableEq

namespace Element

/-- `Element::default()` (derived `Default`): empty vector, `0.0`, `None`, `None`. -/
def default : Element := ⟨[], 0, none, none⟩

/-- `Element::normalize` from `src/element.rs`: rescales one value into the
given range, with the near-zero-range degenerate branch returning `0.0`. -/
def normalize (value mn mx : ℚ) : ℚ :=
  if mx - mn < F64_ALMOST_ZERO then 0 else (value - mn) / (mx - mn)

/-- `Element::normalized` from `src/element.rs`. The Rust method mutates
`self` and returns `Result<()>`; we return the updated element paired with
the outcome. The `min >= max` guard returns before any mutation. -/
def normalized (e : Element) (mn mx : ℚ) : Element × Except TError Unit :=
  if mn ≥ mx then (e, .error (.invalidRange mn mx))
  else
    ({ e with
        characteristics := e.characteristics.map (fun v => normalize v mn mx),
        luminance := normalize e.luminance mn mx },
     .ok ())

/-- Truncating cast `as u32` applied to a non-negative coordinate. -/
def toU32 (q : ℚ) : Nat := (⌊q⌋).toNat

/-- `Element::from_char` from `src/element.rs`: rasterizes a character onto
the fixed square canvas. When the font has no outline, the full-width
space succeeds with an all-background fingerprint and any other character
fails with a glyph-not-found error naming it. -/
def from_char (font : Font) (character : Char) (scale : ℚ) : Except TError Element :=
  let width := IMAGE_SIZE
  let height := IMAGE_SIZE
  let characteristics := List.replicate (width * height) (1 : ℚ)
  match font.outlineGlyph character scale with
  | none =>
      if character = FULL_WIDTH_SPACE then
        .ok ⟨characteristics, 1, some '　', none⟩
      else
        .error (.glyphNotFound character)
  | some outline =>
      let glyph_center_x := outline.boundsMinX + outline.boundsWidth / 2
      let glyph_center_y := outline.boundsMinY + outline.boundsHeight / 2
      let canvas_center_x := (width : ℚ) / 2
      let canvas_center_y := (height : ℚ) / 2
      let offset_x := canvas_center_x - glyph_center_x
      let offset_y := canvas_center_y - glyph_center_y
      let characteristics := outline.coverage.foldl
        (fun cs p =>
          let canvas_x := (p.1 : ℚ) + offset_x
          let canvas_y := (p.2.1 : ℚ) + offset_y
          if 0 ≤ canvas_x ∧ canvas_x < (width : ℚ) ∧
             0 ≤ canvas_y ∧ canvas_y < (height : ℚ) then
            cs.set (toU32 canvas_y * width + toU32 canvas_x) (1 - p.2.2)
          else cs)
        characteristics
      let luminance := characteristics.sum / ((width * height : Nat) : ℚ)
      .ok ⟨characteristics, luminance, some character, none⟩

end Element

/-- Means computed as `iter().sum::<f64>() / n as f64`. -/
def meanOf (v : List ℚ) : ℚ := v.sum / (v.length : ℚ)

/-- The accumulation loop of `correlation`: over the zipped pairs it sums
`(numerator, den_x, den_y)`. -/
def corrLoop (mean_x mean_y : ℚ) (ps : List (ℚ × ℚ)) : ℚ × ℚ × ℚ :=
  ps.foldl
    (fun acc p =>
      (acc.1 + (p.1 - mean_x) * (p.2 - mean_y),
       acc.2.1 + (p.1 - mean_x) * (p.1 - mean_x),
       acc.2.2 + (p.2 - mean_y) * (p.2 - mean_y)))
    (0, 0, 0)

/-- Sum `Σ (xi - meanX)·(yi - meanY)` of `correlation`. -/
def corrNum (x y : List ℚ) : ℚ := (corrLoop (meanOf x) (meanOf y) (x.zip y)).1

/-- Sum `Σ (xi - meanX)²` of `correlation`. -/
def denX (x y : List ℚ) : ℚ := (corrLoop (meanOf x) (meanOf y) (x.zip y)).2.1

/-- Sum `Σ (yi - meanY)²` of `correlation`. -/
def denY (x y : List ℚ) : ℚ := (corrLoop (meanOf x) (meanOf y) (x.zip y)).2.2

/-- `correlation` from `src/correlation.rs`; `Model::correlation` in
`src/model.rs` is a line-for-line copy of the same function, so a single
embedding covers both. The denominator takes real square roots. -/
noncomputable def correlation (x_values y_values : List ℚ) : Option ℝ :=
  if x_values.length ≠ y_values.length ∨ x_values = [] ∨ y_values = [] then none
  else
    let mean_x := meanOf x_values
    let mean_y := meanOf y_values
    let s := corrLoop mean_x mean_y (x_values.zip y_values)
    let denominator : ℝ := Real.sqrt (s.2.1 : ℝ) * Real.sqrt (s.2.2 : ℝ)
    if |denominator| < ((F64_ALMOST_ZERO : ℚ) : ℝ) then
      if |s.2.1| < F64_ALMOST_ZERO ∧ |s.2.2| < F64_ALMOST_ZERO ∧
         |mean_x - mean_y| < F64_ALMOST_ZERO then some 1 else some 0
    else some ((s.1 : ℝ) / denominator)

namespace Model

/-- Comparator `prove.luminance().partial_cmp(&target).unwrap_or(Equal)`:
on non-NaN values `partial_cmp` is the total comparison. -/
def cmpRat (a b : ℚ) : Ordering :=
  if a < b then .lt else if b < a then .gt else .eq

/-- Half-interval loop of `slice::binary_search_by` over the luminances,
fuelled by the slice length; `Except.ok i` is Rust's `Ok(i)` (exact match)
and `Except.error i` is `Err(i)` (insertion point). -/
def bsGo (lums : List ℚ) (t : ℚ) : Nat → Nat → Nat → Except Nat Nat
  | 0, left, _ => .error left
  | fuel + 1, left, right =>
      if left < right then
        let mid := left + (right - left) / 2
        match cmpRat (lums.getD mid 0) t with
        | .lt => bsGo lums t fuel (mid + 1) right
        | .eq => .ok mid
        | .gt => bsGo lums t fuel left mid
      else .error left

/-- `typeset_elements.binary_search_by(|prove| prove.luminance().partial_cmp(&target)...)`. -/
def binarySearchBy (es : List Element) (t : ℚ) : Except Nat Nat :=
  bsGo (es.map Element.luminance) t es.length 0 es.length

/-- `Model::closest_luminance_index` from `src/model.rs`. -/
def closest_luminance_index (target : ℚ) (typeset_elements : List Element) : Nat :=
  match binarySearchBy typeset_elements target with
  | .ok i => i
  | .error i =>
      if i = 0 then 0
      else if i ≥ typeset_elements.length then typeset_elements.length - 1
      else
        let diff1 := |(typeset_elements.getD (i - 1) Element.default).luminance - target|
        let diff2 := |(typeset_elements.getD i Element.default).luminance - target|
        if diff1 < diff2 then i - 1 else i

/-- One iteration of the `Model::best_match_element` loop: a defined
correlation `result` replaces the running best exactly when
`result > max`; an undefined correlation leaves the state alone. -/
noncomputable def bmStep (target : Element) (acc : ℝ × Option Element) (c : Element) :
    ℝ × Option Element :=
  match correlation target.characteristics c.characteristics with
  | some result => if acc.1 < result then (result, some c) else acc
  | none => acc

/-- `Model::best_match_element` from `src/model.rs`: folds over the
candidates keeping the running maximum correlation (initialized to `-1.0`)
and the first candidate that strictly exceeded it. -/
noncomputable def best_match_element (target : Element) (candidates : List Element) :
    Option Element :=
  (candidates.foldl (bmStep target) ((-1 : ℝ), (none : Option Element))).2

/-- The coarse index of STEP 1 of `Model::search_typeset_element`. -/
def coarseIndex (picture_element : Element) (typeset_elements : List Element) : Nat :=
  closest_luminance_index picture_element.luminance typeset_elements

/-- The candidate slice `&typeset_elements[from..to]` of STEP 2 of
`Model::search_typeset_element`, with `from = index.saturating_sub(8)`
(Nat subtraction) and `to = min(len, from + 16)`. -/
def candidateWindow (picture_element : Element) (typeset_elements : List Element) :
    List Element :=
  let index := coarseIndex picture_element typeset_elements
  let lo := index - NUM_OF_CANDIDATES / 2
  let hi := min typeset_elements.length (lo + NUM_OF_CANDIDATES)
  (typeset_elements.drop lo).take (hi - lo)

/-- `Model::search_typeset_element` from `src/model.rs`. -/
noncomputable def search_typeset_element (picture_element : Element)
    (typeset_elements : List Element) : Option Element :=
  if typeset_elements = [] then none
  else
    let candidates := candidateWindow picture_element typeset_elements
    if candidates = [] then
      some (typeset_elements.getD (coarseIndex picture_element typeset_elements)
        Element.default)
    else best_match_element picture_element candidates

/-- `Model::convert` from `src/model.rs`: every tile for which the search
yields no match is replaced by the default element. -/
noncomputable def convert (picture_elements typeset_elements : List Element) :
    List Element :=
  picture_elements.map
    (fun e => (search_typeset_element e typeset_elements).getD Element.default)

/-- The assembly step of `Model::run`: each chosen element is rendered as
its character, or the full-width space when it carries none. -/
def assembleChars (typist_art_elements : List Element) : List Char :=
  typist_art_elements.map (fun e => e.character.getD FULL_WIDTH_SPACE)

/-- The running-minimum fold of `Model::run` over the luminances, started
from `f64::INFINITY` (modelled as `⊤`). -/
def collectionMin (es : List Element) : WithTop ℚ :=
  es.foldl
    (fun m e => if (e.luminance : WithTop ℚ) < m then (e.luminance : WithTop ℚ) else m)
    ⊤

/-- The running-maximum fold of `Model::run` over the luminances, started
from `f64::NEG_INFINITY` (modelled as `⊥`). -/
def collectionMax (es : List Element) : WithBot ℚ :=
  es.foldl
    (fun m e => if m < (e.luminance : WithBot ℚ) then (e.luminance : WithBot ℚ) else m)
    ⊥

/-- The normalization pass of `Model::run`
(`par_iter_mut().for_each(|e| e.normalized(min, max).unwrap())`): the
`unwrap` panic on a failed normalization is modelled as the pass
surfacing that error. -/
def normalizePass (mn mx : ℚ) : List Element → Except TError (List Element)
  | [] => .ok []
  | e :: es =>
      match e.normalized mn mx with
      | (e1, .ok ()) => (normalizePass mn mx es).map (fun l => e1 :: l)
      | (_, .error err) => .error err

end Model

/-- Palette order used by `Model::run`: ascending luminance. -/
def SortedByLum (es : List Element) : Prop :=
  List.Sorted (fun a b : Element => a.luminance ≤ b.luminance) es

/-- Modelled from the spec: the "insertion point" of a brightness target in
the sorted palette — the number of entries strictly darker than the
target. This is the spec-side notion Stage A is described with; for a
sorted palette containing no exact match it coincides with the `Err`
index of the binary search. -/
def insertionPoint (es : List Element) (t : ℚ) : Nat :=
  es.countP (fun e => e.luminance < t)

/-! Concrete elements used to instantiate the theorems below. -/

/-- A three-entry palette with luminances `[0.1, 0.5, 0.9]`, the coarse
search scenario of the spec. -/
def palThree : List Element :=
  [⟨[], 1/10, some 'a', none⟩, ⟨[], 1/2, some 'b', none⟩, ⟨[], 9/10, some 'c', none⟩]

/-- A two-entry palette with luminances `[0, 1]`; the target `1/2` is
equidistant from both entries. -/
def palTie : List Element := [⟨[], 0, some 'a', none⟩, ⟨[], 1, some 'b', none⟩]

/-- A one-pixel fingerprint of luminance `1/2`. -/
def eHalf : Element := ⟨[1/2], 1/2, none, none⟩

/-- A tile fingerprint with characteristics `[0, 0, 1, 1]`. -/
def picAnti : Element := ⟨[0, 0, 1, 1], 1/2, none, none⟩

/-- A palette fingerprint with characteristics `[1, 1, 0, 0]`, perfectly
anti-correlated with `picAnti`. -/
def elAnti : Element := ⟨[1, 1, 0, 0], 1/2, some 'B', none⟩

/-- A one-pixel tile fingerprint of luminance `0`. -/
def picZero : Element := ⟨[0], 0, none, none⟩

/-- A one-pixel palette fingerprint of luminance `0`. -/
def elZero : Element := ⟨[0], 0, some 'A', none⟩

/-- A two-element collection with luminances `0` and `1`. -/
def esPair : List Element := [⟨[0], 0, none, none⟩, ⟨[1], 1, none, none⟩]

/-- A two-element collection whose luminance range `[0, 5e-13]` is
non-degenerate for the `min >= max` guard but below the `1e-12`
threshold of the rescaling branch. -/
def esTiny : List Element := [⟨[0], 0, none, none⟩, ⟨[5/10^13], 5/10^13, none, none⟩]

/-- The image of `esTiny` under its own min/max normalization: everything
collapses to `0`. -/
def esTinyOut : List Element := [⟨[0], 0, none, none⟩, ⟨[0], 0, none, none⟩]

/-- A font provider that has an outline for no character at all. -/
def emptyFont : Font := ⟨fun _ _ => none⟩

end TypistApp

namespace TypistApp

open Model

theorem cmpRat_eq_lt {a b : ℚ} : cmpRat a b = .lt ↔ a < b := by
  unfold cmpRat
  split_ifs with h1 h2
  · exact iff_of_true rfl h1
  · exact iff_of_false (by decide) h1
  · exact iff_of_false (by decide) h1

theorem cmpRat_eq_gt {a b : ℚ} : cmpRat a b = .gt ↔ b < a := by
  unfold cmpRat
  split_ifs with h1 h2
  · exact iff_of_false (by decide) (lt_asymm h1)
  · exact iff_of_true rfl h2
  · exact iff_of_false (by decide) h2

theorem cmpRat_eq_eq {a b : ℚ} : cmpRat a b = .eq ↔ a = b := by
  unfold cmpRat
  split_ifs with h1 h2
  · exact iff_of_false (by decide) (ne_of_lt h1)
  · exact iff_of_false (by decide) (ne_of_gt h2)
  · exact iff_of_true rfl (le_antisymm (not_lt.1 h2) (not_lt.1 h1))

theorem getD_map_luminance (es : List Element) {i : Nat} (h : i < es.length) :
    (es.map Element.luminance).getD i 0 = (es.getD i Element.default).luminance := by
  rw [List.getD_eq_getElem (l := es.map Element.luminance) (d := 0) (by simpa using h),
    List.getD_eq_getElem (l := es) (d := Element.default) h]
  simp

theorem sorted_getD_mono {lums : List ℚ} (hs : List.Sorted (· ≤ ·) lums)
    {i j : Nat} (hij : i ≤ j) (hj : j < lums.length) :
    lums.getD i 0 ≤ lums.getD j 0 := by
  rcases Nat.eq_or_lt_of_le hij with rfl | hlt
  · exact le_refl _
  · have hi : i < lums.length := Nat.lt_trans hlt hj
    rw [List.getD_eq_getElem (l := lums) (d := 0) hi,
      List.getD_eq_getElem (l := lums) (d := 0) hj]
    exact List.pairwise_iff_getElem.mp hs i j hi hj hlt

/-- When the half-interval loop answers `Ok i`, the element at `i` is an
exact luminance match, and `i` is in bounds. -/
theorem bsGo_ok (lums : List ℚ) (t : ℚ) :
    ∀ fuel left right i, right ≤ lums.length →
      bsGo lums t fuel left right = .ok i →
      i < lums.length ∧ lums.getD i 0 = t := by
  intro fuel
  induction fuel with
  | zero => intro l r i hr h; simp [bsGo] at h
  | succ n ih =>
    intro l r i hr h
    simp only [bsGo] at h
    by_cases hlr : l < r
    · rw [if_pos hlr] at h
      have hmid : l + (r - l) / 2 < r := by
        have h2 : (r - l) / 2 < r - l := Nat.div_lt_self (by omega) (by omega)
        omega
      rcases hcmp : cmpRat (lums.getD (l + (r - l) / 2) 0) t with _ | _ | _ <;>
        simp only [hcmp] at h
      · exact ih (l + (r - l) / 2 + 1) r i hr h
      · cases h
        exact ⟨Nat.lt_of_lt_of_le hmid hr, cmpRat_eq_eq.1 hcmp⟩
      · exact ih l (l + (r - l) / 2) i (by omega) h
    · rw [if_neg hlr] at h; cases h

/-- When the half-interval loop answers `Err i` on a sorted slice, `i` is
the partition point: everything before it is strictly below the target and
everything from it on is strictly above. -/
theorem bsGo_err (lums : List ℚ) (t : ℚ) (hs : List.Sorted (· ≤ ·) lums) :
    ∀ fuel left right i, left ≤ right → right ≤ lums.length → right - left ≤ fuel →
      (∀ k, k < left → lums.getD k 0 < t) →
      (∀ k, right ≤ k → k < lums.length → t < lums.getD k 0) →
      bsGo lums t fuel left right = .error i →
      i ≤ lums.length ∧ (∀ k, k < i → lums.getD k 0 < t) ∧
        (∀ k, i ≤ k → k < lums.length → t < lums.getD k 0) := by
  intro fuel
  induction fuel with
  | zero =>
    intro l r i hlr hr hf hlo hhi h
    have : l = r := by omega
    subst this
    simp only [bsGo] at h
    cases h
    exact ⟨Nat.le_trans hlr hr, hlo, fun k hk => hhi k hk⟩
  | succ n ih =>
    intro l r i hlr hr hf hlo hhi h
    simp only [bsGo] at h
    by_cases hlr2 : l < r
    · rw [if_pos hlr2] at h
      have hmid : l + (r - l) / 2 < r := by
        have h2 : (r - l) / 2 < r - l := Nat.div_lt_self (by omega) (by omega)
        omega
      have hmidlen : l + (r - l) / 2 < lums.length := Nat.lt_of_lt_of_le hmid hr
      rcases hcmp : cmpRat (lums.getD (l + (r - l) / 2) 0) t with _ | _ | _ <;>
        simp only [hcmp] at h
      · refine ih (l + (r - l) / 2 + 1) r i (by omega) hr (by omega) ?_ hhi h
        intro k hk
        have hk2 : k ≤ l + (r - l) / 2 := by omega
        exact lt_of_le_of_lt (sorted_getD_mono hs hk2 hmidlen) (cmpRat_eq_lt.1 hcmp)
      · cases h
      · refine ih l (l + (r - l) / 2) i (by omega) (by omega) (by omega) hlo ?_ h
        intro k hk hklen
        exact lt_of_lt_of_le (cmpRat_eq_gt.1 hcmp) (sorted_getD_mono hs hk hklen)
    · rw [if_neg hlr2] at h
      cases h
      have : l = r := by omega
      subst this
      exact ⟨Nat.le_trans hlr hr, hlo, fun k hk => hhi k hk⟩

theorem sortedByLum_map {es : List Element} (hs : SortedByLum es) :
    List.Sorted (· ≤ ·) (es.map Element.luminance) := by
  exact (List.pairwise_map).2 hs

/-- `Ok` outcome of the embedded `binary_search_by`. -/
theorem binarySearchBy_ok {es : List Element} {t : ℚ} {i : Nat}
    (h : binarySearchBy es t = .ok i) :
    i < es.length ∧ (es.getD i Element.default).luminance = t := by
  have := bsGo_ok (es.map Element.luminance) t es.length 0 es.length i
    (by simp) h
  rcases this with ⟨h1, h2⟩
  rw [List.length_map] at h1
  exact ⟨h1, by rw [← getD_map_luminance es h1]; exact h2⟩

/-- `Err` outcome of the embedded `binary_search_by` on a sorted palette. -/
theorem binarySearchBy_err {es : List Element} {t : ℚ} {i : Nat}
    (hs : SortedByLum es) (h : binarySearchBy es t = .error i) :
    i ≤ es.length ∧
      (∀ k, k < i → (es.getD k Element.default).luminance < t) ∧
      (∀ k, i ≤ k → k < es.length → t < (es.getD k Element.default).luminance) := by
  have := bsGo_err (es.map Element.luminance) t (sortedByLum_map hs)
    es.length 0 es.length i (Nat.zero_le _) (by simp) (by simp)
    (by intro k hk; omega) (by intro k hk hk2; simp at hk2; omega) h
  rcases this with ⟨h1, h2, h3⟩
  rw [List.length_map] at h1
  refine ⟨h1, fun k hk => ?_, fun k hk hk2 => ?_⟩
  · have hklen : k < es.length := Nat.lt_of_lt_of_le hk h1
    rw [← getD_map_luminance es hklen]; exact h2 k hk
  · rw [← getD_map_luminance es hk2]
    exact h3 k hk (by simpa using hk2)

/-- A partitioned prefix count: if the first `i` positions satisfy the
luminance bound and the rest refute it, `countP` is exactly `i`. -/
theorem countP_eq_of_partition (t : ℚ) :
    ∀ (es : List Element) (i : Nat), i ≤ es.length →
      (∀ k, k < i → (es.getD k Element.default).luminance < t) →
      (∀ k, i ≤ k → k < es.length → t < (es.getD k Element.default).luminance) →
      insertionPoint es t = i := by
  intro es
  induction es with
  | nil =>
    intro i hi _ _
    have : i = 0 := by simpa using hi
    subst this
    simp [insertionPoint]
  | cons e es ih =>
    intro i hi hlo hhi
    cases i with
    | zero =>
      rw [insertionPoint, List.countP_eq_zero]
      intro a ha
      rcases List.getElem_of_mem ha with ⟨k, hk, rfl⟩
      have h2 := hhi k (Nat.zero_le _) hk
      rw [List.getD_eq_getElem (l := e :: es) (d := Element.default) hk] at h2
      simp only [decide_eq_true_eq]
      exact not_lt.2 (le_of_lt h2)
    | succ j =>
      have he : e.luminance < t := by
        have := hlo 0 (Nat.succ_pos j)
        simpa using this
      have hpe : (decide (e.luminance < t)) = true := by simpa using he
      rw [insertionPoint, List.countP_cons, hpe]
      simp
      have : insertionPoint es t = j := by
        refine ih j (by simpa using hi) ?_ ?_
        · intro k hk
          have := hlo (k + 1) (by omega)
          simpa using this
        · intro k hk hk2
          have := hhi (k + 1) (by omega) (by simpa using hk2)
          simpa using this
      rw [insertionPoint] at this
      omega

/-- An `Err` outcome of the binary search on a sorted palette means no
entry matches the target exactly. -/
theorem binarySearchBy_err_no_exact {es : List Element} {t : ℚ} {i : Nat}
    (hs : SortedByLum es) (h : binarySearchBy es t = .error i) :
    ¬ ∃ e ∈ es, e.luminance = t := by
  rintro ⟨e, he, hlum⟩
  rcases List.getElem_of_mem he with ⟨k, hk, rfl⟩
  rcases binarySearchBy_err hs h with ⟨_, hlo, hhi⟩
  rcases Nat.lt_or_ge k i with hki | hki
  · have := hlo k hki
    rw [List.getD_eq_getElem (l := es) (d := Element.default) hk] at this
    exact absurd hlum (ne_of_lt this)
  · have := hhi k hki hk
    rw [List.getD_eq_getElem (l := es) (d := Element.default) hk] at this
    exact absurd hlum (ne_of_gt this)

/-- The coarse index is always in bounds on a non-empty palette. -/
theorem closest_lt_length (t : ℚ) (es : List Element) (h : es ≠ []) :
    closest_luminance_index t es < es.length := by
  have hlen : 0 < es.length := List.length_pos.2 h
  rw [closest_luminance_index]
  split
  · rename_i i hbs
    exact (binarySearchBy_ok hbs).1
  · rename_i i hbs
    dsimp only
    split_ifs with h1 h2 h3 <;> omega

end TypistApp

namespace TypistApp

open Model

theorem collMin_step (m : WithTop ℚ) (e : Element) :
    (if (e.luminance : WithTop ℚ) < m then (e.luminance : WithTop ℚ) else m) =
      min m (e.luminance : WithTop ℚ) := by
  split_ifs with h
  · exact (min_eq_right (le_of_lt h)).symm
  · exact (min_eq_left (not_lt.1 h)).symm

theorem collMax_step (m : WithBot ℚ) (e : Element) :
    (if m < (e.luminance : WithBot ℚ) then (e.luminance : WithBot ℚ) else m) =
      max m (e.luminance : WithBot ℚ) := by
  split_ifs with h
  · exact (max_eq_right (le_of_lt h)).symm
  · exact (max_eq_left (not_lt.1 h)).symm

theorem collectionMin_eq_fold (es : List Element) :
    collectionMin es = (es.map (fun e => (e.luminance : WithTop ℚ))).foldl min ⊤ := by
  rw [collectionMin, List.foldl_map]
  congr 1
  funext m e
  exact collMin_step m e

theorem collectionMax_eq_fold (es : List Element) :
    collectionMax es = (es.map (fun e => (e.luminance : WithBot ℚ))).foldl max ⊥ := by
  rw [collectionMax, List.foldl_map]
  congr 1
  funext m e
  exact collMax_step m e

theorem foldl_min_le {α : Type} [LinearOrder α] (l : List α) :
    ∀ a : α, l.foldl min a ≤ a ∧ ∀ x ∈ l, l.foldl min a ≤ x := by
  induction l with
  | nil => intro a; exact ⟨le_refl _, by simp⟩
  | cons b l ih =>
    intro a
    refine ⟨le_trans (ih (min a b)).1 (min_le_left a b), ?_⟩
    intro x hx
    rcases List.mem_cons.1 hx with rfl | hx
    · exact le_trans (ih (min a x)).1 (min_le_right a x)
    · exact (ih (min a b)).2 x hx

theorem foldl_min_mem {α : Type} [LinearOrder α] (l : List α) :
    ∀ a : α, l.foldl min a = a ∨ l.foldl min a ∈ l := by
  induction l with
  | nil => intro a; left; rfl
  | cons b l ih =>
    intro a
    rcases ih (min a b) with h | h
    · rcases le_total a b with hab | hab
      · left; rw [List.foldl_cons, h, min_eq_left hab]
      · right
        rw [List.foldl_cons, h, min_eq_right hab]
        exact List.mem_cons_self b l
    · right; exact List.mem_cons_of_mem b h

theorem foldl_max_ge {α : Type} [LinearOrder α] (l : List α) :
    ∀ a : α, a ≤ l.foldl max a ∧ ∀ x ∈ l, x ≤ l.foldl max a := by
  induction l with
  | nil => intro a; exact ⟨le_refl _, by simp⟩
  | cons b l ih =>
    intro a
    refine ⟨le_trans (le_max_left a b) (ih (max a b)).1, ?_⟩
    intro x hx
    rcases List.mem_cons.1 hx with rfl | hx
    · exact le_trans (le_max_right a x) (ih (max a x)).1
    · exact (ih (max a b)).2 x hx

theorem foldl_max_mem {α : Type} [LinearOrder α] (l : List α) :
    ∀ a : α, l.foldl max a = a ∨ l.foldl max a ∈ l := by
  induction l with
  | nil => intro a; left; rfl
  | cons b l ih =>
    intro a
    rcases ih (max a b) with h | h
    · rcases le_total b a with hab | hab
      · left; rw [List.foldl_cons, h, max_eq_left hab]
      · right
        rw [List.foldl_cons, h, max_eq_right hab]
        exact List.mem_cons_self b l
    · right; exact List.mem_cons_of_mem b h

/-- Characterization of the running-minimum fold of `Model::run` on a
collection: it lands on a rational value exactly when that value is an
attained lower bound of the luminances. -/
theorem collectionMin_eq_coe_iff (es : List Element) (m : ℚ) :
    collectionMin es = (m : WithTop ℚ) ↔
      (∃ e ∈ es, e.luminance = m) ∧ ∀ e ∈ es, m ≤ e.luminance := by
  rw [collectionMin_eq_fold]
  set l := es.map fun e => ((e.luminance : WithTop ℚ)) with hl
  constructor
  · intro h
    have hmem := foldl_min_mem l ⊤
    have hle := foldl_min_le l ⊤
    rw [h] at hmem hle
    rcases hmem with h1 | h1
    · exact absurd h1 (by simp)
    · rcases List.mem_map.1 h1 with ⟨e, he, heq⟩
      refine ⟨⟨e, he, by exact_mod_cast heq⟩, ?_⟩
      intro e2 he2
      have := hle.2 _ (List.mem_map_of_mem _ he2)
      exact_mod_cast this
  · rintro ⟨⟨e, he, rfl⟩, hlb⟩
    have hle := foldl_min_le l ⊤
    have hmem := foldl_min_mem l ⊤
    have h1 : l.foldl min ⊤ ≤ (e.luminance : WithTop ℚ) :=
      hle.2 _ (List.mem_map_of_mem _ he)
    have h2 : (e.luminance : WithTop ℚ) ≤ l.foldl min ⊤ := by
      rcases hmem with h | h
      · rw [h]; exact le_top
      · rcases List.mem_map.1 h with ⟨e2, he2, heq⟩
        rw [← heq]
        exact_mod_cast hlb e2 he2
    exact le_antisymm h1 h2

/-- Characterization of the running-maximum fold of `Model::run` on a
collection: it lands on a rational value exactly when that value is an
attained upper bound of the luminances. -/
theorem collectionMax_eq_coe_iff (es : List Element) (m : ℚ) :
    collectionMax es = (m : WithBot ℚ) ↔
      (∃ e ∈ es, e.luminance = m) ∧ ∀ e ∈ es, e.luminance ≤ m := by
  rw [collectionMax_eq_fold]
  set l := es.map fun e => ((e.luminance : WithBot ℚ)) with hl
  constructor
  · intro h
    have hmem := foldl_max_mem l ⊥
    have hle := foldl_max_ge l ⊥
    rw [h] at hmem hle
    rcases hmem with h1 | h1
    · exact absurd h1 (by simp)
    · rcases List.mem_map.1 h1 with ⟨e, he, heq⟩
      refine ⟨⟨e, he, by exact_mod_cast heq⟩, ?_⟩
      intro e2 he2
      have := hle.2 _ (List.mem_map_of_mem _ he2)
      exact_mod_cast this
  · rintro ⟨⟨e, he, rfl⟩, hub⟩
    have hle := foldl_max_ge l ⊥
    have hmem := foldl_max_mem l ⊥
    have h1 : (e.luminance : WithBot ℚ) ≤ l.foldl max ⊥ :=
      hle.2 _ (List.mem_map_of_mem _ he)
    have h2 : l.foldl max ⊥ ≤ (e.luminance : WithBot ℚ) := by
      rcases hmem with h | h
      · rw [h]; exact bot_le
      · rcases List.mem_map.1 h with ⟨e2, he2, heq⟩
        rw [← heq]
        exact_mod_cast hub e2 he2
    exact le_antisymm h2 h1

/-- With a strictly valid range, the normalization pass of `Model::run`
succeeds and rescales every element. -/
theorem normalizePass_ok_of_lt {mn mx : ℚ} (h : mn < mx) (es : List Element) :
    normalizePass mn mx es = .ok (es.map fun e =>
      { e with
          characteristics := e.characteristics.map fun v => Element.normalize v mn mx,
          luminance := Element.normalize e.luminance mn mx }) := by
  induction es with
  | nil => rfl
  | cons e es ih =>
    simp only [normalizePass, Element.normalized, if_neg (not_le.2 h)]
    rw [ih]
    rfl

theorem normalize_zero_one (v : ℚ) : Element.normalize v 0 1 = v := by
  rw [Element.normalize, if_neg (by norm_num [F64_ALMOST_ZERO])]
  norm_num

/-- Normalizing with `min = 0`, `max = 1` is the identity pass. -/
theorem normalizePass_zero_one_id (es : List Element) : normalizePass 0 1 es = .ok es := by
  rw [normalizePass_ok_of_lt (by norm_num)]
  have : (fun e : Element =>
      { e with
          characteristics := e.characteristics.map fun v => Element.normalize v 0 1,
          luminance := Element.normalize e.luminance 0 1 }) = id := by
    funext e
    cases e
    simp [normalize_zero_one]
  rw [this, List.map_id]

end TypistApp

namespace TypistApp

open Model

/-- Invariant of the `best_match_element` fold: starting from `(m0, b0)`,
either no candidate ever strictly exceeded `m0` (state unchanged, every
defined correlation bounded by `m0`), or the state holds some processed
candidate whose correlation is the running maximum, strictly above `m0`
and an upper bound of every defined correlation seen. -/
theorem bmFold_invariant (target : Element) :
    ∀ (cs : List Element) (m0 : ℝ) (b0 : Option Element),
      m0 ≤ (cs.foldl (bmStep target) (m0, b0)).1 ∧
      (((cs.foldl (bmStep target) (m0, b0)).2 = b0 ∧
        (cs.foldl (bmStep target) (m0, b0)).1 = m0 ∧
        ∀ c ∈ cs, ∀ s : ℝ,
          correlation target.characteristics c.characteristics = some s → s ≤ m0) ∨
       (∃ e ∈ cs, (cs.foldl (bmStep target) (m0, b0)).2 = some e ∧
         correlation target.characteristics e.characteristics =
           some (cs.foldl (bmStep target) (m0, b0)).1 ∧
         m0 < (cs.foldl (bmStep target) (m0, b0)).1 ∧
         ∀ c ∈ cs, ∀ s : ℝ,
           correlation target.characteristics c.characteristics = some s →
             s ≤ (cs.foldl (bmStep target) (m0, b0)).1)) := by
  intro cs
  induction cs with
  | nil =>
    intro m0 b0
    exact ⟨le_refl _, Or.inl ⟨rfl, rfl, by simp⟩⟩
  | cons c cs ih =>
    intro m0 b0
    rw [List.foldl_cons]
    rcases hcor : correlation target.characteristics c.characteristics with _ | r
    · have hstep : bmStep target (m0, b0) c = (m0, b0) := by
        rw [bmStep, hcor]
      rw [hstep]
      rcases ih m0 b0 with ⟨h1, h2 | h2⟩
      · refine ⟨h1, Or.inl ⟨h2.1, h2.2.1, ?_⟩⟩
        intro c2 hc2 s hs
        rcases List.mem_cons.1 hc2 with rfl | hc2
        · rw [hcor] at hs; cases hs
        · exact h2.2.2 c2 hc2 s hs
      · rcases h2 with ⟨e, he, h3, h4, h5, h6⟩
        refine ⟨h1, Or.inr ⟨e, List.mem_cons_of_mem c he, h3, h4, h5, ?_⟩⟩
        intro c2 hc2 s hs
        rcases List.mem_cons.1 hc2 with rfl | hc2
        · rw [hcor] at hs; cases hs
        · exact h6 c2 hc2 s hs
    · by_cases hlt : m0 < r
      · have hstep : bmStep target (m0, b0) c = (r, some c) := by
          rw [bmStep, hcor]; exact if_pos hlt
        rw [hstep]
        rcases ih r (some c) with ⟨h1, h2 | h2⟩
        · refine ⟨le_trans (le_of_lt hlt) h1,
            Or.inr ⟨c, List.mem_cons_self c cs, h2.1, ?_, ?_, ?_⟩⟩
          · rw [h2.2.1, hcor]
          · rw [h2.2.1]; exact hlt
          · intro c2 hc2 s hs
            rcases List.mem_cons.1 hc2 with rfl | hc2
            · rw [hcor] at hs
              cases hs
              rw [h2.2.1]
            · rw [h2.2.1]
              exact h2.2.2 c2 hc2 s hs
        · rcases h2 with ⟨e, he, h3, h4, h5, h6⟩
          refine ⟨le_trans (le_of_lt hlt) (le_of_lt h5),
            Or.inr ⟨e, List.mem_cons_of_mem c he, h3, h4, lt_trans hlt h5, ?_⟩⟩
          intro c2 hc2 s hs
          rcases List.mem_cons.1 hc2 with rfl | hc2
          · rw [hcor] at hs; cases hs; exact le_of_lt h5
          · exact h6 c2 hc2 s hs
      · have hstep : bmStep target (m0, b0) c = (m0, b0) := by
          rw [bmStep, hcor]; exact if_neg hlt
        rw [hstep]
        rcases ih m0 b0 with ⟨h1, h2 | h2⟩
        · refine ⟨h1, Or.inl ⟨h2.1, h2.2.1, ?_⟩⟩
          intro c2 hc2 s hs
          rcases List.mem_cons.1 hc2 with rfl | hc2
          · rw [hcor] at hs; cases hs; exact not_lt.1 hlt
          · exact h2.2.2 c2 hc2 s hs
        · rcases h2 with ⟨e, he, h3, h4, h5, h6⟩
          refine ⟨h1, Or.inr ⟨e, List.mem_cons_of_mem c he, h3, h4, h5, ?_⟩⟩
          intro c2 hc2 s hs
          rcases List.mem_cons.1 hc2 with rfl | hc2
          · rw [hcor] at hs; cases hs
            exact le_trans (not_lt.1 hlt) (le_of_lt h5)
          · exact h6 c2 hc2 s hs

/-- A returned best match is a candidate whose correlation is defined,
strictly above the `-1.0` sentinel, and maximal among the defined
correlations of the candidates. -/
theorem best_match_some (target : Element) (cs : List Element) (e : Element)
    (h : best_match_element target cs = some e) :
    e ∈ cs ∧ ∃ r : ℝ, correlation target.characteristics e.characteristics = some r ∧
      -1 < r ∧ ∀ c ∈ cs, ∀ s : ℝ,
        correlation target.characteristics c.characteristics = some s → s ≤ r := by
  rcases bmFold_invariant target cs (-1) none with ⟨_, h2 | h2⟩
  · rw [best_match_element, h2.1] at h
    cases h
  · rcases h2 with ⟨e2, he2, h3, h4, h5, h6⟩
    rw [best_match_element, h3] at h
    cases h
    exact ⟨he2, _, h4, h5, h6⟩

/-- If some candidate has a defined correlation strictly above `-1.0`,
`best_match_element` returns a candidate. -/
theorem best_match_of_exists (target : Element) (cs : List Element)
    (h : ∃ c ∈ cs, ∃ r : ℝ,
      correlation target.characteristics c.characteristics = some r ∧ -1 < r) :
    ∃ e, best_match_element target cs = some e := by
  rcases bmFold_invariant target cs (-1) none with ⟨_, h2 | h2⟩
  · rcases h with ⟨c, hc, r, hr, hgt⟩
    exact absurd hgt (not_lt.2 (h2.2.2 c hc r hr))
  · rcases h2 with ⟨e, _, h3, _⟩
    exact ⟨e, by rw [best_match_element, h3]⟩

/-- On a non-empty palette the candidate window is never empty. -/
theorem candidateWindow_ne_nil (pic : Element) (es : List Element) (h : es ≠ []) :
    candidateWindow pic es ≠ [] := by
  have hidx := closest_lt_length pic.luminance es h
  rw [candidateWindow]
  intro hc
  have hlen := congrArg List.length hc
  simp only [List.length_take, List.length_drop, List.length_nil, coarseIndex,
    NUM_OF_CANDIDATES] at hlen
  omega

/-- On a non-empty palette the fine search is exactly `best_match_element`
on the candidate window (the empty-window fallback never fires). -/
theorem search_eq_best_match (pic : Element) (es : List Element) (h : es ≠ []) :
    search_typeset_element pic es = best_match_element pic (candidateWindow pic es) := by
  rw [search_typeset_element, if_neg h]
  dsimp only
  rw [if_neg (candidateWindow_ne_nil pic es h)]

end TypistApp

namespace TypistApp.Claims

open TypistApp.Model

/-- C1, counterexample: on the sorted two-entry palette with luminances
`[0, 1]` and target `1/2`, the insertion point is `1` and the two
neighbors are equidistant from the target, yet `closest_luminance_index`
returns `1` — the claim says a tie favors `i - 1 = 0`. -/
theorem c1_tie_counterexample :
    insertionPoint palTie (1/2) = 1 ∧
    |(palTie.getD 0 Element.default).luminance - 1/2| =
      |(palTie.getD 1 Element.default).luminance - 1/2| ∧
    closest_luminance_index (1/2) palTie = 1 := by
  refine ⟨?_, ?_, ?_⟩
  · norm_num [insertionPoint, palTie, List.countP, List.countP.go]
  · norm_num [palTie, Element.default]
  · norm_num [closest_luminance_index, binarySearchBy, bsGo, cmpRat, palTie,
      Element.default]

/-- C1, amended: for every palette sorted ascending by luminance, the
coarse search returns an exactly-matching index when one exists, and
otherwise, with insertion point `i`: index `0` when `i = 0`, `len - 1`
when `i ≥ len`, and else the strictly closer of the neighbors at `i - 1`
and `i`, with ties (equal distances) favoring `i` (not `i - 1` as the
original claim stated). On an empty palette it returns `0` and the
function is total (never panics). -/
theorem c1_coarse_search_amended (es : List Element) (t : ℚ) (hs : SortedByLum es) :
    (es = [] → closest_luminance_index t es = 0) ∧
    ((∃ e ∈ es, e.luminance = t) →
      closest_luminance_index t es < es.length ∧
      (es.getD (closest_luminance_index t es) Element.default).luminance = t) ∧
    (es ≠ [] → (¬ ∃ e ∈ es, e.luminance = t) →
      closest_luminance_index t es =
        if insertionPoint es t = 0 then 0
        else if insertionPoint es t ≥ es.length then es.length - 1
        else if |(es.getD (insertionPoint es t - 1) Element.default).luminance - t| <
                  |(es.getD (insertionPoint es t) Element.default).luminance - t|
             then insertionPoint es t - 1 else insertionPoint es t) := by
  refine ⟨?_, ?_, ?_⟩
  · rintro rfl
    simp [closest_luminance_index, binarySearchBy, bsGo]
  · intro hex
    rcases hbs : binarySearchBy es t with i | i
    · exact absurd hex (binarySearchBy_err_no_exact hs hbs)
    · have hok := binarySearchBy_ok hbs
      have : closest_luminance_index t es = i := by
        rw [closest_luminance_index]; simp only [hbs]
      rw [this]
      exact hok
  · intro hne hnex
    rcases hbs : binarySearchBy es t with i | i
    · have hpart := binarySearchBy_err hs hbs
      have hins : insertionPoint es t = i :=
        countP_eq_of_partition t es i hpart.1 hpart.2.1 hpart.2.2
      rw [closest_luminance_index]
      simp only [hbs]
      rw [hins]
    · exfalso
      rcases binarySearchBy_ok hbs with ⟨hlt, hlum⟩
      refine hnex ⟨es.getD i Element.default, ?_, hlum⟩
      rw [List.getD_eq_getElem (l := es) (d := Element.default) hlt]
      exact List.getElem_mem hlt

/-- C1, witness: the amended theorem applied to the sorted palette with
luminances `[0.1, 0.5, 0.9]` and target `0.2` gives index `0`. -/
theorem c1_coarse_search_witness : closest_luminance_index (1/5) palThree = 0 := by
  have h := (c1_coarse_search_amended palThree (1/5)
      (by norm_num [SortedByLum, palThree, List.sorted_cons])).2.2
    (by simp [palThree])
    (by norm_num [palThree])
  rw [h]
  norm_num [insertionPoint, palThree, List.countP, List.countP.go, Element.default,
    abs_of_nonneg]

/-- C8: a direct call to `Element::normalized` with caller-supplied
`min >= max` fails with an `InvalidRange` error, and a call with
`min < max` succeeds. -/
theorem c8_invalid_range_guard (e : Element) (mn mx : ℚ) :
    ((e.normalized mn mx).2 = .error (.invalidRange mn mx) ↔ mn ≥ mx) ∧
    ((e.normalized mn mx).2 = .ok () ↔ mn < mx) := by
  constructor
  · unfold Element.normalized
    split_ifs with h
    · exact iff_of_true rfl h
    · exact iff_of_false (by simp) h
  · unfold Element.normalized
    split_ifs with h
    · exact iff_of_false (by simp) (not_lt.2 h)
    · exact iff_of_true rfl (not_le.1 h)

/-- C10: if `Element::normalized` returns an error the element is left
completely unchanged, and on success only `characteristics` and
`luminance` change while `character` and `image` are untouched. -/
theorem c10_normalized_atomicity (e : Element) (mn mx : ℚ) :
    (∀ err : TError, (e.normalized mn mx).2 = .error err → (e.normalized mn mx).1 = e) ∧
    ((e.normalized mn mx).2 = .ok () →
      (e.normalized mn mx).1.character = e.character ∧
      (e.normalized mn mx).1.image = e.image ∧
      (e.normalized mn mx).1.characteristics =
        e.characteristics.map (fun v => Element.normalize v mn mx) ∧
      (e.normalized mn mx).1.luminance = Element.normalize e.luminance mn mx) := by
  unfold Element.normalized
  split_ifs with h
  · simp
  · simp

/-- C10, witness: an erroring call (`min = 1 > max = 0`) leaves the
concrete element `eHalf` unchanged. -/
theorem c10_normalized_atomicity_witness : (eHalf.normalized 1 0).1 = eHalf :=
  (c10_normalized_atomicity eHalf 1 0).1 (.invalidRange 1 0)
    (by norm_num [Element.normalized])

/-- C2, counterexample: `normalized` with `min == max == 1/2` errors with
`InvalidRange` instead of succeeding with zeros, and the collection-driven
pass of `Model::run` on a uniform-luminance collection surfaces that same
error (the Rust code panics on the `unwrap`). -/
theorem c2_min_eq_max_counterexample :
    eHalf.normalized (1/2) (1/2) = (eHalf, .error (.invalidRange (1/2) (1/2))) ∧
    normalizePass (1/2) (1/2) [eHalf] = .error (.invalidRange (1/2) (1/2)) := by
  constructor
  · norm_num [Element.normalized]
  · norm_num [normalizePass, Element.normalized, eHalf]

/-- C2, amended: `normalized` with `min >= max` (in particular
`min == max`) fails with `InvalidRange`, leaving the element unchanged;
the all-zero degenerate branch is reached only when `min < max` while
`max - min < 1e-12`; and the collection-driven normalization of
`Model::run`, on a non-empty collection in which every fingerprint has
the same luminance, derives `min == max` and fails with `InvalidRange`
(the `unwrap` panics) instead of producing zeros. -/
theorem c2_normalized_amended (e : Element) (mn mx : ℚ) (es : List Element) (m : ℚ)
    (hne : es ≠ []) (hall : ∀ x ∈ es, x.luminance = m) :
    (mn ≥ mx → e.normalized mn mx = (e, .error (.invalidRange mn mx))) ∧
    (mn < mx → mx - mn < F64_ALMOST_ZERO →
      (e.normalized mn mx).1.characteristics = e.characteristics.map (fun _ => 0) ∧
      (e.normalized mn mx).1.luminance = 0) ∧
    collectionMin es = (m : WithTop ℚ) ∧
    collectionMax es = (m : WithBot ℚ) ∧
    normalizePass m m es = .error (.invalidRange m m) := by
  refine ⟨?_, ?_, ?_, ?_, ?_⟩
  · intro h
    rw [Element.normalized, if_pos h]
  · intro h1 h2
    rw [Element.normalized, if_neg (not_le.2 h1)]
    constructor
    · simp only []
      exact List.map_congr_left (fun v _ => by rw [Element.normalize, if_pos h2])
    · simp only []
      rw [Element.normalize, if_pos h2]
  · rcases List.exists_mem_of_ne_nil es hne with ⟨x, hx⟩
    exact (collectionMin_eq_coe_iff es m).2
      ⟨⟨x, hx, hall x hx⟩, fun e2 he2 => le_of_eq (hall e2 he2).symm⟩
  · rcases List.exists_mem_of_ne_nil es hne with ⟨x, hx⟩
    exact (collectionMax_eq_coe_iff es m).2
      ⟨⟨x, hx, hall x hx⟩, fun e2 he2 => le_of_eq (hall e2 he2)⟩
  · rcases es with _ | ⟨x, es⟩
    · exact absurd rfl hne
    · simp only [normalizePass, Element.normalized, if_pos (le_refl m)]

/-- C2, witness: the amended theorem applied to the uniform one-element
collection `[eHalf]` with luminance `1/2`. -/
theorem c2_normalized_amended_witness :
    collectionMin [eHalf] = ((1/2 : ℚ) : WithTop ℚ) ∧
    normalizePass (1/2) (1/2) [eHalf] = .error (.invalidRange (1/2) (1/2)) := by
  have h := c2_normalized_amended eHalf (1/2) (1/2) [eHalf] (1/2) (by simp)
    (by intro x hx; simp at hx; rw [hx]; rfl)
  exact ⟨h.2.2.1, h.2.2.2.2⟩

/-- C6: `correlation` returns no result exactly when the two vectors have
different lengths or are empty; on every pair of equal-length non-empty
vectors it returns a defined value. -/
theorem c6_correlation_definedness (x y : List ℚ) :
    correlation x y = none ↔ x.length ≠ y.length ∨ (x = [] ∧ y = []) := by
  by_cases h : x.length ≠ y.length ∨ x = [] ∨ y = []
  · rw [correlation, if_pos h]
    refine iff_of_true rfl ?_
    by_cases hlen : x.length = y.length
    · rcases h with h | h | h
      · exact absurd hlen h
      · refine Or.inr ⟨h, List.length_eq_zero.1 ?_⟩
        rw [← hlen, h]; rfl
      · refine Or.inr ⟨List.length_eq_zero.1 ?_, h⟩
        rw [hlen, h]; rfl
    · exact Or.inl hlen
  · push_neg at h
    rw [correlation, if_neg (by push_neg; exact h)]
    refine iff_of_false ?_ ?_
    · dsimp only
      split_ifs <;> simp
    · push_neg
      exact ⟨h.1, fun hx => absurd hx h.2.1⟩

/-- C5: whenever the real denominator of `correlation` is below the
near-zero threshold, the result is `1.0` exactly when both deviation sums
are below the threshold and the two means agree within the threshold
(both vectors constant in the claim's sense), and `0.0` in every other
such case. -/
theorem c5_degenerate_correlation (x y : List ℚ) (hlen : x.length = y.length)
    (hx : x ≠ [])
    (hden : |Real.sqrt ((denX x y : ℚ) : ℝ) * Real.sqrt ((denY x y : ℚ) : ℝ)| <
      ((F64_ALMOST_ZERO : ℚ) : ℝ)) :
    (correlation x y = some 1 ↔
      (|denX x y| < F64_ALMOST_ZERO ∧ |denY x y| < F64_ALMOST_ZERO ∧
        |meanOf x - meanOf y| < F64_ALMOST_ZERO)) ∧
    (correlation x y = some 0 ↔
      ¬(|denX x y| < F64_ALMOST_ZERO ∧ |denY x y| < F64_ALMOST_ZERO ∧
        |meanOf x - meanOf y| < F64_ALMOST_ZERO)) := by
  have hy : y ≠ [] := by
    intro h
    refine hx (List.length_eq_zero.1 ?_)
    rw [hlen, h]; rfl
  rw [correlation, if_neg (by push_neg; exact ⟨hlen, hx, hy⟩)]
  dsimp only
  have hden' : |Real.sqrt ((corrLoop (meanOf x) (meanOf y) (x.zip y)).2.1 : ℝ) *
      Real.sqrt ((corrLoop (meanOf x) (meanOf y) (x.zip y)).2.2 : ℝ)| <
      ((F64_ALMOST_ZERO : ℚ) : ℝ) := hden
  rw [if_pos hden']
  split_ifs with h
  · refine ⟨iff_of_true rfl h, iff_of_false ?_ (not_not.2 h)⟩
    simp
  · refine ⟨iff_of_false ?_ h, iff_of_true rfl h⟩
    simp

/-- C5, witness: two equal constant one-element vectors fall in the
degenerate branch and correlate to `1.0`. -/
theorem c5_degenerate_correlation_witness : correlation [(0 : ℚ)] [0] = some 1 := by
  have h := (c5_degenerate_correlation [(0 : ℚ)] [0] rfl (by simp)
    (by norm_num [denX, denY, corrLoop, meanOf, F64_ALMOST_ZERO, Real.sqrt_zero])).1
  exact h.2 (by norm_num [denX, denY, corrLoop, meanOf, F64_ALMOST_ZERO])

/-- C7: for a character the font has no outline for, `from_char` succeeds
with the all-background fingerprint (all characteristics `1.0`, brightness
`1.0`, source character the literal full-width space) exactly when the
character is the designated full-width space, and fails with a
glyph-not-found error naming the character otherwise. -/
theorem c7_missing_outline (font : Font) (scale : ℚ) (c : Char)
    (h : font.outlineGlyph c scale = none) :
    (c = FULL_WIDTH_SPACE →
      Element.from_char font c scale =
        .ok ⟨List.replicate (IMAGE_SIZE * IMAGE_SIZE) 1, 1, some FULL_WIDTH_SPACE, none⟩) ∧
    (c ≠ FULL_WIDTH_SPACE →
      Element.from_char font c scale = .error (.glyphNotFound c)) := by
  constructor
  · intro hc
    simp only [Element.from_char, h, if_pos hc]
    rfl
  · intro hc
    simp only [Element.from_char, h, if_neg hc]

/-- C7, witness: with a font holding no outlines at all, the full-width
space renders to the all-background fingerprint and the character `A`
fails with a glyph-not-found error naming it. -/
theorem c7_missing_outline_witness :
    Element.from_char emptyFont FULL_WIDTH_SPACE 1 =
      .ok ⟨List.replicate (IMAGE_SIZE * IMAGE_SIZE) 1, 1, some FULL_WIDTH_SPACE, none⟩ ∧
    Element.from_char emptyFont 'A' 1 = .error (.glyphNotFound 'A') :=
  ⟨(c7_missing_outline emptyFont 1 FULL_WIDTH_SPACE rfl).1 rfl,
   (c7_missing_outline emptyFont 1 'A' rfl).2 (by decide)⟩

/-- C4: with an empty palette the per-tile search yields no match, the
engine substitutes the default (empty) fingerprint for every tile with no
error, and at assembly any fingerprint carrying no character — the
default in particular — is rendered as the full-width space sentinel. -/
theorem c4_empty_palette_default (pics : List Element) :
    (∀ e : Element, search_typeset_element e [] = none) ∧
    convert pics [] = pics.map (fun _ => Element.default) ∧
    assembleChars (convert pics []) = pics.map (fun _ => FULL_WIDTH_SPACE) ∧
    (∀ e : Element, e.character = none → e.character.getD FULL_WIDTH_SPACE = FULL_WIDTH_SPACE) := by
  have hs : ∀ e : Element, search_typeset_element e [] = none := by
    intro e
    rw [search_typeset_element, if_pos rfl]
  refine ⟨hs, ?_, ?_, ?_⟩
  · rw [convert]
    exact List.map_congr_left (fun e _ => by rw [hs e]; rfl)
  · rw [assembleChars, convert, List.map_map]
    exact List.map_congr_left (fun e _ => by simp [Function.comp, hs e, Element.default])
  · intro e he
    rw [he]
    rfl

/-- C3, counterexample: a one-entry palette whose only candidate is
perfectly anti-correlated with the tile has a defined correlation
(`-1.0`), lies in the candidate window, yet the fine search returns no
candidate, because the `-1.0` sentinel initialization of
`best_match_element` requires a strictly greater score. -/
theorem c3_sentinel_counterexample :
    correlation picAnti.characteristics elAnti.characteristics = some (-1) ∧
    candidateWindow picAnti [elAnti] = [elAnti] ∧
    search_typeset_element picAnti [elAnti] = none := by
  have hcor : correlation picAnti.characteristics elAnti.characteristics = some (-1) := by
    norm_num [correlation, corrLoop, meanOf, F64_ALMOST_ZERO, Real.sqrt_one,
      picAnti, elAnti]
    rintro (h | h) <;> simp at h
  have hwin : candidateWindow picAnti [elAnti] = [elAnti] := by
    norm_num [candidateWindow, coarseIndex, closest_luminance_index, binarySearchBy,
      bsGo, cmpRat, NUM_OF_CANDIDATES, picAnti, elAnti]
  refine ⟨hcor, hwin, ?_⟩
  rw [search_eq_best_match picAnti [elAnti] (by simp), hwin, best_match_element,
    List.foldl_cons]
  rw [show bmStep picAnti ((-1 : ℝ), (none : Option Element)) elAnti =
      ((-1 : ℝ), (none : Option Element)) from by
    rw [bmStep, hcor]; exact if_neg (lt_irrefl (-1))]
  rfl

/-- C3, amended: for every non-empty sorted palette and tile, the fine
search builds the window `[max(0, index-8), min(len, from+16))` around the
coarse index, which is never empty, and runs `best_match_element` on it; a
returned candidate comes from the window and maximizes correlation among
the window's defined correlations (its score strictly above the `-1.0`
sentinel); and whenever some window candidate has a defined correlation
strictly greater than `-1.0`, some candidate is returned — candidates
whose correlation is undefined, or defined but equal to `-1.0`, are never
chosen. -/
theorem c3_fine_search_amended (pic : Element) (pal : List Element)
    (hne : pal ≠ []) (_hs : SortedByLum pal) :
    candidateWindow pic pal =
      (pal.drop (coarseIndex pic pal - NUM_OF_CANDIDATES / 2)).take
        (min pal.length ((coarseIndex pic pal - NUM_OF_CANDIDATES / 2) + NUM_OF_CANDIDATES) -
          (coarseIndex pic pal - NUM_OF_CANDIDATES / 2)) ∧
    candidateWindow pic pal ≠ [] ∧
    search_typeset_element pic pal = best_match_element pic (candidateWindow pic pal) ∧
    (∀ e, best_match_element pic (candidateWindow pic pal) = some e →
      e ∈ candidateWindow pic pal ∧
      ∃ r : ℝ, correlation pic.characteristics e.characteristics = some r ∧ -1 < r ∧
        ∀ c ∈ candidateWindow pic pal, ∀ s : ℝ,
          correlation pic.characteristics c.characteristics = some s → s ≤ r) ∧
    ((∃ c ∈ candidateWindow pic pal, ∃ r : ℝ,
        correlation pic.characteristics c.characteristics = some r ∧ -1 < r) →
      ∃ e, search_typeset_element pic pal = some e) := by
  refine ⟨rfl, candidateWindow_ne_nil pic pal hne, search_eq_best_match pic pal hne,
    ?_, ?_⟩
  · intro e he
    exact best_match_some pic _ e he
  · intro hex
    rcases best_match_of_exists pic _ hex with ⟨e, he⟩
    exact ⟨e, by rw [search_eq_best_match pic pal hne]; exact he⟩

/-- C3, witness: on the one-entry palette `[elZero]` the tile `picZero`
correlates to `1.0 > -1.0` with the only window candidate, so the amended
theorem yields a returned candidate. -/
theorem c3_fine_search_witness :
    ∃ e, search_typeset_element picZero [elZero] = some e := by
  have hwin : candidateWindow picZero [elZero] = [elZero] := by
    norm_num [candidateWindow, coarseIndex, closest_luminance_index, binarySearchBy,
      bsGo, cmpRat, NUM_OF_CANDIDATES, picZero, elZero]
  refine (c3_fine_search_amended picZero [elZero] (by simp) (by simp [SortedByLum])).2.2.2.2
    ⟨elZero, by rw [hwin]; exact List.mem_singleton_self elZero, 1, ?_, by norm_num⟩
  norm_num [correlation, corrLoop, meanOf, F64_ALMOST_ZERO, Real.sqrt_zero,
    picZero, elZero]

/-- C9, counterexample: the collection `esTiny` has luminance min `0`
strictly below max `5e-13`; after normalizing it by its own range (the
whole range is below the `1e-12` threshold, so everything collapses to
`0`) the result's own min and max are both `0` — not `0` and `1` — and
re-normalizing by the result's own range fails with `InvalidRange`
instead of reproducing the sequence. -/
theorem c9_tiny_range_counterexample :
    collectionMin esTiny = ((0 : ℚ) : WithTop ℚ) ∧
    collectionMax esTiny = ((5/10^13 : ℚ) : WithBot ℚ) ∧
    (0 : ℚ) < 5/10^13 ∧
    normalizePass 0 (5/10^13) esTiny = .ok esTinyOut ∧
    collectionMin esTinyOut = ((0 : ℚ) : WithTop ℚ) ∧
    collectionMax esTinyOut = ((0 : ℚ) : WithBot ℚ) ∧
    normalizePass 0 0 esTinyOut = .error (.invalidRange 0 0) := by
  refine ⟨?_, ?_, by norm_num, ?_, ?_, ?_, ?_⟩
  · refine (collectionMin_eq_coe_iff _ _).2 ⟨⟨⟨[0], 0, none, none⟩, by simp [esTiny], rfl⟩, ?_⟩
    intro e he
    simp only [esTiny, List.mem_cons, List.mem_singleton] at he
    rcases he with rfl | rfl | h
    · norm_num
    · norm_num
    · exact absurd h (List.not_mem_nil e)
  · refine (collectionMax_eq_coe_iff _ _).2
      ⟨⟨⟨[5/10^13], 5/10^13, none, none⟩, by simp [esTiny], rfl⟩, ?_⟩
    intro e he
    simp only [esTiny, List.mem_cons, List.mem_singleton] at he
    rcases he with rfl | rfl | h
    · norm_num
    · norm_num
    · exact absurd h (List.not_mem_nil e)
  · norm_num [normalizePass, Element.normalized, Element.normalize, F64_ALMOST_ZERO,
      esTiny, esTinyOut, Except.map]
  · refine (collectionMin_eq_coe_iff _ _).2 ⟨⟨⟨[0], 0, none, none⟩, by simp [esTinyOut], rfl⟩, ?_⟩
    intro e he
    simp only [esTinyOut, List.mem_cons, List.mem_singleton] at he
    rcases he with rfl | rfl | h
    · norm_num
    · norm_num
    · exact absurd h (List.not_mem_nil e)
  · refine (collectionMax_eq_coe_iff _ _).2 ⟨⟨⟨[0], 0, none, none⟩, by simp [esTinyOut], rfl⟩, ?_⟩
    intro e he
    simp only [esTinyOut, List.mem_cons, List.mem_singleton] at he
    rcases he with rfl | rfl | h
    · norm_num
    · norm_num
    · exact absurd h (List.not_mem_nil e)
  · norm_num [normalizePass, Element.normalized, esTinyOut]

/-- C9, amended: for every collection whose luminance min is strictly
below its max by at least the `1e-12` threshold, the first normalization
pass succeeds, the result's own min and max are exactly `0` and `1`, and
a second pass with `min = 0`, `max = 1` reproduces the identical
collection. (When `0 < max - min < 1e-12` the first pass instead
collapses everything to `0` and the result's own range is degenerate, as
the counterexample shows.) -/
theorem c9_renormalization_amended (es : List Element) (m M : ℚ)
    (hm : collectionMin es = (m : WithTop ℚ)) (hM : collectionMax es = (M : WithBot ℚ))
    (hlt : m < M) (hnd : F64_ALMOST_ZERO ≤ M - m) :
    ∃ es1, normalizePass m M es = .ok es1 ∧
      collectionMin es1 = ((0 : ℚ) : WithTop ℚ) ∧
      collectionMax es1 = ((1 : ℚ) : WithBot ℚ) ∧
      normalizePass 0 1 es1 = .ok es1 := by
  rcases (collectionMin_eq_coe_iff es m).1 hm with ⟨⟨emin, hmem, hlem⟩, hlb⟩
  rcases (collectionMax_eq_coe_iff es M).1 hM with ⟨⟨emax, hmemM, hleM⟩, hub⟩
  refine ⟨_, normalizePass_ok_of_lt hlt es, ?_, ?_, normalizePass_zero_one_id _⟩
  · apply (collectionMin_eq_coe_iff _ 0).2
    constructor
    · refine ⟨_, List.mem_map_of_mem _ hmem, ?_⟩
      show Element.normalize emin.luminance m M = 0
      rw [hlem, Element.normalize, if_neg (not_lt.2 hnd)]
      simp
    · intro e2 he2
      rcases List.mem_map.1 he2 with ⟨e, he, rfl⟩
      show 0 ≤ Element.normalize e.luminance m M
      rw [Element.normalize, if_neg (not_lt.2 hnd)]
      apply div_nonneg
      · linarith [hlb e he]
      · linarith
  · apply (collectionMax_eq_coe_iff _ 1).2
    constructor
    · refine ⟨_, List.mem_map_of_mem _ hmemM, ?_⟩
      show Element.normalize emax.luminance m M = 1
      rw [hleM, Element.normalize, if_neg (not_lt.2 hnd)]
      exact div_self (by linarith)
    · intro e2 he2
      rcases List.mem_map.1 he2 with ⟨e, he, rfl⟩
      show Element.normalize e.luminance m M ≤ 1
      rw [Element.normalize, if_neg (not_lt.2 hnd)]
      rw [div_le_one (by linarith)]
      linarith [hub e he]

/-- C9, witness: the amended theorem applied to the collection with
luminances `0` and `1`. -/
theorem c9_renormalization_witness :
    ∃ es1, normalizePass 0 1 esPair = .ok es1 ∧
      collectionMin es1 = ((0 : ℚ) : WithTop ℚ) ∧
      collectionMax es1 = ((1 : ℚ) : WithBot ℚ) ∧
      normalizePass 0 1 es1 = .ok es1 :=
  c9_renormalization_amended esPair 0 1
    (by
      refine (collectionMin_eq_coe_iff _ _).2 ⟨⟨⟨[0], 0, none, none⟩, by simp [esPair], rfl⟩, ?_⟩
      intro e he
      simp only [esPair, List.mem_cons, List.mem_singleton] at he
      rcases he with rfl | rfl | h
      exacts [by norm_num, by norm_num, absurd h (List.not_mem_nil e)])
    (by
      refine (collectionMax_eq_coe_iff _ _).2 ⟨⟨⟨[1], 1, none, none⟩, by simp [esPair], rfl⟩, ?_⟩
      intro e he
      simp only [esPair, List.mem_cons, List.mem_singleton] at he
      rcases he with rfl | rfl | h
      exacts [by norm_num, by norm_num, absurd h (List.not_mem_nil e)])
    (by norm_num)
    (by norm_num [F64_ALMOST_ZERO])

end TypistApp.Claims
